import Mathlib

/-!
Shallow embedding of `Movie_Recommendation_Algorithm.py`.

Python sets are modelled as duplicate-free `List String` values kept in
insertion order; Python floats are modelled as exact rationals `ℚ`; the
`defaultdict(set)` graph is a structure with an explicit key list and an
adjacency function; the recursion of `dfs` is fuel-indexed and a
stabilization theorem shows the result is independent of the fuel above an
explicit bound.  A second, state-threaded version of the traversal
(`dfsT`, `calculate_scoreT`) makes the auto-vivifying `defaultdict` access
`graph[node]` explicit, so that read-only-ness of the graph during scoring
is a provable statement rather than a modelling assumption.
-/

namespace MovieRec

/-- `s.add(x)` on a Python set modelled as a duplicate-free list. -/
def sadd (s : List String) (x : String) : List String :=
  if x ∈ s then s else s ++ [x]

/-- `s |= t` on Python sets modelled as lists. -/
def sunion (s t : List String) : List String :=
  t.foldl sadd s

/-- `set(l)`: the distinct elements of `l` in first-occurrence order. -/
def sdedup (l : List String) : List String :=
  sunion [] l

/-- The `defaultdict(set)` mapping built by `build_graph`: an explicit key
list (in insertion order) plus the adjacency function; `adj k = []` for any
`k` that is not a key. -/
structure Graph where
  keys : List String
  adj : String → List String

def emptyGraph : Graph := ⟨[], fun _ => []⟩

/-- `graph[k].add(v)` on a `defaultdict(set)`: vivifies key `k` if absent and
inserts `v` into its adjacency set. -/
def addTo (g : Graph) (k v : String) : Graph :=
  ⟨if k ∈ g.keys then g.keys else g.keys ++ [k],
   fun x => if x = k then sadd (g.adj k) v else g.adj x⟩

/-- One iteration of the similarity loop of `build_graph`:
`graph[a].add(b); graph[b].add(a); graph[a].add(a); graph[b].add(b)`. -/
def addPair (g : Graph) (p : String × String) : Graph :=
  addTo (addTo (addTo (addTo g p.1 p.2) p.2 p.1) p.1 p.1) p.2 p.2

/-- One iteration of the movie loop of `build_graph`:
`if movie not in graph: graph[movie].add(movie)`. -/
def addMovie (g : Graph) (m : String) : Graph :=
  if m ∈ g.keys then g else addTo g m m

/-- `build_graph(movies, similarities)` from the source. -/
def build_graph (movies : List String) (similarities : List (String × String)) : Graph :=
  movies.foldl addMovie (similarities.foldl addPair emptyGraph)

/-- Reading `graph[x]` without recording the mutation: the stored adjacency
set for keys, and the empty set a `defaultdict` would freshly create
otherwise. -/
def adjOf (g : Graph) (x : String) : List String :=
  if x ∈ g.keys then g.adj x else []

/-- `dfs(node, graph, visited)` from the source, fuel-indexed: returns the
pair (result set, visited set); the Python `visited` argument is mutated in
place, so it is threaded through the neighbour loop. -/
def dfs (g : Graph) : Nat → String → List String → List String × List String
  | 0, _, visited => ([], visited)
  | f + 1, node, visited =>
    if node ∈ visited then ([], visited)
    else
      (adjOf g node).foldl
        (fun acc nb =>
          let r := dfs g f nb acc.2
          (sunion acc.1 r.1, r.2))
        ([node], visited ++ [node])

/-- The body of the neighbour loop of `dfs` at fuel `f`. -/
def dfsStep (g : Graph) (f : Nat) (acc : List String × List String) (nb : String) :
    List String × List String :=
  let r := dfs g f nb acc.2
  (sunion acc.1 r.1, r.2)

/-- All strings a traversal of `g` can ever visit once it is on a key: the
keys together with every member of every adjacency set. -/
def universeOf (g : Graph) : List String :=
  g.keys.foldl (fun acc k => acc ++ g.adj k) g.keys

/-- Enough fuel for `dfs` on `g` from any start node. -/
def dfsFuel (g : Graph) : Nat :=
  (universeOf g).length + 2

/-- `dfs(start, graph, set())`: the similarity component of `start`. -/
def runDfs (g : Graph) (start : String) : List String :=
  (dfs g (dfsFuel g) start []).1

/-- `len(set(friend) & similar_movies)`. -/
def overlap (friend : List String) (similar : List String) : Nat :=
  ((sdedup friend).filter (fun x => decide (x ∈ similar))).length

/-- `calculate_score(movie, friends, graph)` from the source.  `none` models
the `KeyError` that `similar_movies.remove(movie)` would raise if `movie`
were missing from its own component (proved unreachable below). -/
def calculate_score (movie : String) (friends : List (List String)) (g : Graph) :
    Option (ℚ × ℚ) :=
  let seen_friends := (friends.filter (fun f => decide (movie ∈ f))).length
  if seen_friends = 0 then some (0, 0)
  else
    let similar0 := runDfs g movie
    if movie ∈ similar0 then
      let similar_movies := similar0.erase movie
      let counted := friends.filter (fun f => decide (0 < overlap f similar_movies))
      let total : Nat := (counted.map (fun f => overlap f similar_movies)).sum
      if counted.length = 0 then some (0, 0)
      else some ((seen_friends : ℚ), 1 / ((total : ℚ) / (counted.length : ℚ)))
    else none

/-- The loop of `recommend_movie`: score every movie and keep
`(movie, score / uniqueness)` for those with nonzero uniqueness; `none`
propagates a `calculate_score` exception. -/
def recommendationsOf (movies : List String) (friends : List (List String)) (g : Graph) :
    Option (List (String × ℚ)) :=
  movies.foldlM
    (fun acc movie => do
      let su ← calculate_score movie friends g
      pure (if su.2 ≠ 0 then acc ++ [(movie, su.1 / su.2)] else acc))
    []

/-- Python's `max(x :: l, key=...)` on the second component: scans left to
right and replaces the current best only on a strictly larger key, so the
first maximum wins. -/
def pymax (x : String × ℚ) (l : List (String × ℚ)) : String × ℚ :=
  l.foldl (fun best y => if best.2 < y.2 then y else best) x

/-- `recommend_movie(movies, similarities, friends)` from the source. -/
def recommend_movie (movies : List String) (similarities : List (String × String))
    (friends : List (List String)) : Option String :=
  let g := build_graph movies similarities
  match recommendationsOf movies friends g with
  | none => none
  | some [] => some "No movie to recommend"
  | some (r :: rs) => some (pymax r rs).1

/-! ### Threaded (auto-vivifying) variant of the traversal

`getItem` is the literal semantics of reading `graph[k]` on a
`defaultdict(set)`: if `k` is absent it becomes a key with an empty set.
`dfsT` and `calculate_scoreT` thread the graph through every such access,
so the final graph component records exactly what the Python run did to the
shared graph object. -/

def getItem (g : Graph) (k : String) : List String × Graph :=
  if k ∈ g.keys then (g.adj k, g)
  else ([], ⟨g.keys ++ [k], fun x => if x = k then [] else g.adj x⟩)

def dfsT : Nat → String → Graph → List String → List String × List String × Graph
  | 0, _, g, visited => ([], visited, g)
  | f + 1, node, g, visited =>
    if node ∈ visited then ([], visited, g)
    else
      let p := getItem g node
      p.1.foldl
        (fun acc nb =>
          let r := dfsT f nb acc.2.2 acc.2.1
          (sunion acc.1 r.1, r.2.1, r.2.2))
        ([node], visited ++ [node], p.2)

def calculate_scoreT (movie : String) (friends : List (List String)) (g : Graph) :
    Option (ℚ × ℚ) × Graph :=
  let seen_friends := (friends.filter (fun f => decide (movie ∈ f))).length
  if seen_friends = 0 then (some (0, 0), g)
  else
    let t := dfsT (dfsFuel g) movie g []
    if movie ∈ t.1 then
      let similar_movies := t.1.erase movie
      let counted := friends.filter (fun f => decide (0 < overlap f similar_movies))
      let total : Nat := (counted.map (fun f => overlap f similar_movies)).sum
      if counted.length = 0 then (some (0, 0), t.2.2)
      else (some ((seen_friends : ℚ), 1 / ((total : ℚ) / (counted.length : ℚ))), t.2.2)
    else (none, t.2.2)

/-- A graph whose adjacency sets only mention keys; `build_graph` always
produces such a graph. -/
def Closed (g : Graph) : Prop :=
  ∀ k, k ∈ g.keys → ∀ x, x ∈ g.adj k → x ∈ g.keys

/-! ### Spec-side quantities used to state the claims -/

/-- The number of peers whose history contains `movie`. -/
def seenCount (movie : String) (friends : List (List String)) : Nat :=
  (friends.filter (fun f => decide (movie ∈ f))).length

/-- The similarity cluster of `movie`: its component minus `movie` itself. -/
def clusterOf (g : Graph) (movie : String) : List String :=
  (runDfs g movie).erase movie

/-- The peers with a strictly positive intersection with the cluster. -/
def countedOf (movie : String) (friends : List (List String)) (g : Graph) :
    List (List String) :=
  friends.filter (fun f => decide (0 < overlap f (clusterOf g movie)))

/-- The total cluster overlap over the counted peers. -/
def totalOf (movie : String) (friends : List (List String)) (g : Graph) : Nat :=
  ((countedOf movie friends g).map (fun f => overlap f (clusterOf g movie))).sum

/-- The candidate entry `recommend_movie`'s loop produces for one movie. -/
def pickOf (friends : List (List String)) (g : Graph) (movie : String) :
    Option (String × ℚ) :=
  match calculate_score movie friends g with
  | none => none
  | some su => if su.2 ≠ 0 then some (movie, su.1 / su.2) else none

/-- The full candidate list of `recommend_movie`, in catalog order. -/
def recList (movies : List String) (friends : List (List String)) (g : Graph) :
    List (String × ℚ) :=
  movies.filterMap (pickOf friends g)

/-- How many elements of `U` the visited set has not yet reached; the
termination measure of `dfs`. -/
def avail (U : List String) (visited : List String) : Nat :=
  (U.toFinset \ visited.toFinset).card

/-! ### The worked example -/

/-- The worked example's catalog. -/
def exMovies : List String :=
  ["Snatch", "Lock, Stock and Two Smoking Barrels", "The Hateful Eight",
   "Pain & Gain", "Reservoir Dogs"]

/-- The worked example's similarity pairs. -/
def exSimilarities : List (String × String) :=
  [("Snatch", "Lock, Stock and Two Smoking Barrels"),
   ("Snatch", "Pain & Gain"),
   ("Reservoir Dogs", "The Hateful Eight")]

/-- The worked example's peer histories. -/
def exFriends : List (List String) :=
  [["Reservoir Dogs"],
   ["Reservoir Dogs", "Lock, Stock and Two Smoking Barrels"],
   ["Reservoir Dogs"],
   ["Snatch"],
   ["Lock, Stock and Two Smoking Barrels"],
   ["Pain & Gain", "Reservoir Dogs"]]

/-! ### Basic lemmas on the set model -/

theorem mem_sadd {s : List String} {x y : String} :
    x ∈ sadd s y ↔ x ∈ s ∨ x = y := by
  by_cases h : y ∈ s
  · simp only [sadd, if_pos h]
    constructor
    · exact Or.inl
    · rintro (hx | rfl) <;> assumption
  · simp [sadd, if_neg h]

theorem mem_sunion {t s : List String} {x : String} :
    x ∈ sunion s t ↔ x ∈ s ∨ x ∈ t := by
  induction t generalizing s with
  | nil => simp [sunion]
  | cons y t ih =>
    show x ∈ sunion (sadd s y) t ↔ _
    rw [ih, mem_sadd]
    simp only [List.mem_cons]
    tauto

theorem mem_sdedup {l : List String} {x : String} :
    x ∈ sdedup l ↔ x ∈ l := by
  unfold sdedup; rw [mem_sunion]; simp

/-! ### `build_graph` invariants -/

theorem mem_keys_addTo {g : Graph} {k v x : String} :
    x ∈ (addTo g k v).keys ↔ x ∈ g.keys ∨ x = k := by
  by_cases h : k ∈ g.keys
  · simp only [addTo, if_pos h]
    constructor
    · exact Or.inl
    · rintro (hx | rfl) <;> assumption
  · simp [addTo, if_neg h]

theorem mem_adj_addTo {g : Graph} {k v x y : String} :
    x ∈ (addTo g k v).adj y ↔ x ∈ g.adj y ∨ (y = k ∧ x = v) := by
  by_cases h : y = k
  · subst h; simp [addTo, mem_sadd]
  · simp [addTo, if_neg h, h]

theorem mem_keys_addPair {g : Graph} {p : String × String} {x : String} :
    x ∈ (addPair g p).keys ↔ x ∈ g.keys ∨ x = p.1 ∨ x = p.2 := by
  simp only [addPair, mem_keys_addTo]
  tauto

theorem mem_adj_addPair {g : Graph} {p : String × String} {x y : String} :
    x ∈ (addPair g p).adj y ↔
      x ∈ g.adj y ∨ (y = p.1 ∧ x = p.2) ∨ (y = p.2 ∧ x = p.1) ∨
        (y = p.1 ∧ x = p.1) ∨ (y = p.2 ∧ x = p.2) := by
  simp only [addPair, mem_adj_addTo]
  tauto

theorem mem_keys_addMovie {g : Graph} {m x : String} :
    x ∈ (addMovie g m).keys ↔ x ∈ g.keys ∨ x = m := by
  by_cases h : m ∈ g.keys
  · simp only [addMovie, if_pos h]
    constructor
    · exact Or.inl
    · rintro (hx | rfl) <;> assumption
  · simp [addMovie, if_neg h, mem_keys_addTo]

theorem mem_adj_addMovie {g : Graph} {m x y : String} :
    x ∈ (addMovie g m).adj y ↔ x ∈ g.adj y ∨ (m ∉ g.keys ∧ y = m ∧ x = m) := by
  by_cases h : m ∈ g.keys
  · simp [addMovie, if_pos h, h]
  · simp [addMovie, if_neg h, mem_adj_addTo, h]

/-- The invariants maintained while folding `build_graph`. -/
def GraphInv (g : Graph) : Prop :=
  (∀ k, k ∈ g.keys → k ∈ g.adj k) ∧
  (∀ a b, b ∈ g.adj a ↔ a ∈ g.adj b) ∧
  (∀ k x, x ∈ g.adj k → x ∈ g.keys ∧ k ∈ g.keys)

theorem graphInv_empty : GraphInv emptyGraph := by
  refine ⟨?_, ?_, ?_⟩ <;> simp [emptyGraph]

theorem graphInv_addPair {g : Graph} (h : GraphInv g) (p : String × String) :
    GraphInv (addPair g p) := by
  obtain ⟨hself, hsym, hcl⟩ := h
  refine ⟨?_, ?_, ?_⟩
  · intro k hk
    rw [mem_keys_addPair] at hk
    rw [mem_adj_addPair]
    rcases hk with hk | rfl | rfl
    · exact Or.inl (hself k hk)
    · tauto
    · tauto
  · intro a b
    rw [mem_adj_addPair, mem_adj_addPair, hsym a b]
    tauto
  · intro k x hx
    rw [mem_adj_addPair] at hx
    rw [mem_keys_addPair, mem_keys_addPair]
    rcases hx with hx | hx | hx | hx | hx
    · have := hcl k x hx
      tauto
    all_goals tauto

theorem graphInv_addMovie {g : Graph} (h : GraphInv g) (m : String) :
    GraphInv (addMovie g m) := by
  obtain ⟨hself, hsym, hcl⟩ := h
  refine ⟨?_, ?_, ?_⟩
  · intro k hk
    rw [mem_keys_addMovie] at hk
    rw [mem_adj_addMovie]
    by_cases hm : m ∈ g.keys
    · rcases hk with hk | rfl
      · exact Or.inl (hself k hk)
      · exact Or.inl (hself k hm)
    · rcases hk with hk | rfl
      · exact Or.inl (hself k hk)
      · tauto
  · intro a b
    rw [mem_adj_addMovie, mem_adj_addMovie, hsym a b]
    tauto
  · intro k x hx
    rw [mem_adj_addMovie] at hx
    rw [mem_keys_addMovie, mem_keys_addMovie]
    rcases hx with hx | hx
    · have := hcl k x hx
      tauto
    · tauto

theorem graphInv_foldPairs (sims : List (String × String)) :
    ∀ g, GraphInv g → GraphInv (sims.foldl addPair g) := by
  induction sims with
  | nil => intro g h; exact h
  | cons p sims ih =>
    intro g h
    exact ih _ (graphInv_addPair h p)

theorem graphInv_foldMovies (movies : List String) :
    ∀ g, GraphInv g → GraphInv (movies.foldl addMovie g) := by
  induction movies with
  | nil => intro g h; exact h
  | cons m movies ih =>
    intro g h
    exact ih _ (graphInv_addMovie h m)

theorem graphInv_build (movies : List String) (sims : List (String × String)) :
    GraphInv (build_graph movies sims) :=
  graphInv_foldMovies movies _ (graphInv_foldPairs sims _ graphInv_empty)

theorem closed_build (movies : List String) (sims : List (String × String)) :
    Closed (build_graph movies sims) := by
  intro k hk x hx
  exact ((graphInv_build movies sims).2.2 k x hx).1

/-- Adjacency membership is never lost while folding. -/
theorem adj_mono_foldPairs {x y : String} (sims : List (String × String)) :
    ∀ g, x ∈ g.adj y → x ∈ (sims.foldl addPair g).adj y := by
  induction sims with
  | nil => intro g h; exact h
  | cons p sims ih =>
    intro g h
    exact ih _ (mem_adj_addPair.mpr (Or.inl h))

theorem adj_mono_foldMovies {x y : String} (movies : List String) :
    ∀ g, x ∈ g.adj y → x ∈ (movies.foldl addMovie g).adj y := by
  induction movies with
  | nil => intro g h; exact h
  | cons m movies ih =>
    intro g h
    exact ih _ (mem_adj_addMovie.mpr (Or.inl h))

theorem keys_mono_foldPairs {x : String} (sims : List (String × String)) :
    ∀ g, x ∈ g.keys → x ∈ (sims.foldl addPair g).keys := by
  induction sims with
  | nil => intro g h; exact h
  | cons p sims ih =>
    intro g h
    exact ih _ (mem_keys_addPair.mpr (Or.inl h))

/-- A similarity pair ends up recorded in both directions. -/
theorem pair_mem_build {movies : List String} {sims : List (String × String)}
    {a b : String} (h : (a, b) ∈ sims) :
    b ∈ (build_graph movies sims).adj a ∧ a ∈ (build_graph movies sims).adj b := by
  unfold build_graph
  have main : ∀ g, b ∈ (sims.foldl addPair g).adj a ∧ a ∈ (sims.foldl addPair g).adj b := by
    induction sims with
    | nil => cases h
    | cons p sims ih =>
      intro g
      rcases List.mem_cons.mp h with rfl | hmem
      · constructor
        · exact adj_mono_foldPairs sims _ (mem_adj_addPair.mpr (Or.inr (Or.inl ⟨rfl, rfl⟩)))
        · exact adj_mono_foldPairs sims _
            (mem_adj_addPair.mpr (Or.inr (Or.inr (Or.inl ⟨rfl, rfl⟩))))
      · exact ih hmem _
  constructor
  · exact adj_mono_foldMovies movies _ (main emptyGraph).1
  · exact adj_mono_foldMovies movies _ (main emptyGraph).2

theorem keys_mono_foldMovies {x : String} (movies : List String) :
    ∀ g, x ∈ g.keys → x ∈ (movies.foldl addMovie g).keys := by
  induction movies with
  | nil => intro g h; exact h
  | cons m movies ih =>
    intro g h
    exact ih _ (mem_keys_addMovie.mpr (Or.inl h))

/-- Every listed movie is a key of the built graph. -/
theorem movie_mem_keys_build {movies : List String} {sims : List (String × String)}
    {m : String} (h : m ∈ movies) : m ∈ (build_graph movies sims).keys := by
  unfold build_graph
  have main : ∀ g, m ∈ (movies.foldl addMovie g).keys := by
    induction movies with
    | nil => cases h
    | cons x movies ih =>
      intro g
      rcases List.mem_cons.mp h with rfl | hmem
      · exact keys_mono_foldMovies movies _ (mem_keys_addMovie.mpr (Or.inr rfl))
      · exact ih hmem _
  exact main _

/-! ### Lemmas on the traversal -/

theorem dfs_succ (g : Graph) (f : Nat) (node : String) (visited : List String) :
    dfs g (f + 1) node visited =
      if node ∈ visited then ([], visited)
      else (adjOf g node).foldl (dfsStep g f) ([node], visited ++ [node]) := rfl

theorem foldl_visited_mono (g : Graph) (f : Nat)
    (hm : ∀ node v x, x ∈ v → x ∈ (dfs g f node v).2) :
    ∀ (l : List String) (acc : List String × List String) (x : String),
      x ∈ acc.2 → x ∈ (l.foldl (dfsStep g f) acc).2 := by
  intro l
  induction l with
  | nil => intro acc x h; exact h
  | cons nb l ih =>
    intro acc x h
    rw [List.foldl_cons]
    exact ih _ x (hm nb acc.2 x h)

/-- The visited set only grows through a `dfs` call. -/
theorem dfs_visited_mono (g : Graph) :
    ∀ (f : Nat) (node : String) (v : List String) (x : String),
      x ∈ v → x ∈ (dfs g f node v).2 := by
  intro f
  induction f with
  | zero => intro node v x h; exact h
  | succ f ih =>
    intro node v x h
    rw [dfs_succ]
    by_cases hn : node ∈ v
    · rw [if_pos hn]; exact h
    · rw [if_neg hn]
      exact foldl_visited_mono g f ih _ _ x (List.mem_append_left _ h)

theorem foldl_result_mono (g : Graph) (f : Nat) :
    ∀ (l : List String) (acc : List String × List String) (x : String),
      x ∈ acc.1 → x ∈ (l.foldl (dfsStep g f) acc).1 := by
  intro l
  induction l with
  | nil => intro acc x h; exact h
  | cons nb l ih =>
    intro acc x h
    rw [List.foldl_cons]
    exact ih _ x (mem_sunion.mpr (Or.inl h))

theorem foldl_visited_iff (g : Graph) (f : Nat)
    (hiff : ∀ node v x, x ∈ (dfs g f node v).2 ↔ x ∈ v ∨ x ∈ (dfs g f node v).1) :
    ∀ (l : List String) (v0 : List String) (acc : List String × List String),
      (∀ x, x ∈ acc.2 ↔ x ∈ v0 ∨ x ∈ acc.1) →
      ∀ x, x ∈ (l.foldl (dfsStep g f) acc).2 ↔
        x ∈ v0 ∨ x ∈ (l.foldl (dfsStep g f) acc).1 := by
  intro l
  induction l with
  | nil => intro v0 acc h x; exact h x
  | cons nb l ih =>
    intro v0 acc h x
    rw [List.foldl_cons]
    apply ih v0
    intro y
    simp only [dfsStep, mem_sunion]
    rw [hiff nb acc.2 y, h y]
    tauto

/-- A node is visited by a `dfs` call exactly when it was already visited or
appears in the call's result set. -/
theorem dfs_mem_visited_iff (g : Graph) :
    ∀ (f : Nat) (node : String) (v : List String) (x : String),
      x ∈ (dfs g f node v).2 ↔ x ∈ v ∨ x ∈ (dfs g f node v).1 := by
  intro f
  induction f with
  | zero => intro node v x; simp [dfs]
  | succ f ih =>
    intro node v x
    rw [dfs_succ]
    by_cases hn : node ∈ v
    · rw [if_pos hn]; simp
    · rw [if_neg hn]
      apply foldl_visited_iff g f ih _ v
      intro y
      simp

/-- The result of `dfs` always contains the (unvisited) start node. -/
theorem dfs_self_mem (g : Graph) {f : Nat} {node : String} {v : List String}
    (hf : 1 ≤ f) (hn : node ∉ v) : node ∈ (dfs g f node v).1 := by
  obtain ⟨f, rfl⟩ : ∃ k, f = k + 1 := ⟨f - 1, by omega⟩
  rw [dfs_succ, if_neg hn]
  exact foldl_result_mono g f _ _ _ (List.mem_singleton_self _)

theorem foldl_visits_member (g : Graph) (f : Nat)
    (hm : ∀ node v x, x ∈ v → x ∈ (dfs g f node v).2) (hf : 1 ≤ f) (b : String) :
    ∀ (l : List String) (acc : List String × List String),
      b ∈ l ∨ b ∈ acc.2 → b ∈ (l.foldl (dfsStep g f) acc).2 := by
  intro l
  induction l with
  | nil =>
    intro acc h
    rcases h with h | h
    · cases h
    · exact h
  | cons nb l ih =>
    intro acc h
    rw [List.foldl_cons]
    apply ih
    rcases h with h | h
    · rcases List.mem_cons.mp h with rfl | h
      · right
        by_cases hb : b ∈ acc.2
        · exact hm b acc.2 b hb
        · have h1 : b ∈ (dfs g f b acc.2).1 := dfs_self_mem g hf hb
          exact (dfs_mem_visited_iff g f b acc.2 b).mpr (Or.inr h1)
      · left; exact h
    · right
      exact hm nb acc.2 b h

/-- Every neighbour of an unvisited node gets visited. -/
theorem dfs_adj_mem (g : Graph) {f : Nat} {node : String} {v : List String} {b : String}
    (hf : 2 ≤ f) (hn : node ∉ v) (hb : b ∈ adjOf g node) : b ∈ (dfs g f node v).2 := by
  obtain ⟨f, rfl⟩ : ∃ k, f = k + 1 := ⟨f - 1, by omega⟩
  rw [dfs_succ, if_neg hn]
  exact foldl_visits_member g f (dfs_visited_mono g f) (by omega) b _ _ (Or.inl hb)

theorem two_le_dfsFuel (g : Graph) : 2 ≤ dfsFuel g := by
  unfold dfsFuel; omega

/-- The component of `start` contains `start`. -/
theorem runDfs_self_mem (g : Graph) (start : String) : start ∈ runDfs g start :=
  dfs_self_mem g (by have := two_le_dfsFuel g; omega) (List.not_mem_nil _)

/-- The component of `start` contains every neighbour of `start`. -/
theorem runDfs_adj_mem (g : Graph) {start b : String} (hb : b ∈ adjOf g start) :
    b ∈ runDfs g start := by
  have h2 := dfs_adj_mem g (two_le_dfsFuel g) (List.not_mem_nil start) hb
  rcases (dfs_mem_visited_iff g (dfsFuel g) start [] b).mp h2 with h | h
  · cases h
  · exact h

/-! ### Fuel stabilization -/

theorem avail_mono {U v v' : List String} (h : ∀ x, x ∈ v → x ∈ v') :
    avail U v' ≤ avail U v := by
  apply Finset.card_le_card
  apply Finset.sdiff_subset_sdiff (Finset.Subset.refl _)
  intro a ha
  rw [List.mem_toFinset] at ha ⊢
  exact h a ha

theorem avail_append_lt {U v : List String} {x : String} (hxU : x ∈ U) (hxv : x ∉ v) :
    avail U (v ++ [x]) < avail U v := by
  apply Finset.card_lt_card
  rw [Finset.ssubset_iff_of_subset]
  · refine ⟨x, ?_, ?_⟩
    · simp [hxU, hxv]
    · simp
  · apply Finset.sdiff_subset_sdiff (Finset.Subset.refl _)
    intro a ha
    rw [List.mem_toFinset] at ha
    simp only [List.toFinset_append, Finset.mem_union, List.mem_toFinset]
    exact Or.inl ha

theorem foldl_stabilize (g : Graph) (U : List String) (f f₂ : Nat)
    (hcong : ∀ node v, node ∈ U → avail U v < f → dfs g f node v = dfs g f₂ node v)
    (hm : ∀ node v x, x ∈ v → x ∈ (dfs g f node v).2) :
    ∀ (l : List String), (∀ nb ∈ l, nb ∈ U) →
      ∀ acc, avail U acc.2 < f →
        l.foldl (dfsStep g f) acc = l.foldl (dfsStep g f₂) acc := by
  intro l
  induction l with
  | nil => intro _ acc _; rfl
  | cons nb l ih =>
    intro hl acc hacc
    rw [List.foldl_cons, List.foldl_cons]
    have hnb : nb ∈ U := hl nb (List.mem_cons_self _ _)
    have hstep : dfsStep g f acc nb = dfsStep g f₂ acc nb := by
      simp only [dfsStep]
      rw [hcong nb acc.2 hnb hacc]
    rw [← hstep]
    apply ih (fun x hx => hl x (List.mem_cons_of_mem _ hx))
    have hsub : ∀ x, x ∈ acc.2 → x ∈ (dfsStep g f acc nb).2 := by
      intro x hx
      exact hm nb acc.2 x hx
    exact lt_of_le_of_lt (avail_mono hsub) hacc

/-- Above the bound given by the not-yet-visited part of a closed universe
`U`, the fuel is irrelevant: the fuel-indexed approximations of the Python
recursion stabilize, i.e. the recursion terminates. -/
theorem dfs_stabilize (g : Graph) (U : List String)
    (hU : ∀ k, k ∈ g.keys → ∀ x, x ∈ g.adj k → x ∈ U) :
    ∀ (f₁ f₂ : Nat) (node : String) (v : List String),
      node ∈ U → avail U v < f₁ → f₁ ≤ f₂ →
      dfs g f₁ node v = dfs g f₂ node v := by
  intro f₁
  induction f₁ with
  | zero => intro f₂ node v _ h _; omega
  | succ f ih =>
    intro f₂ node v hnode hav hle
    obtain ⟨f₂', rfl⟩ : ∃ k, f₂ = k + 1 := ⟨f₂ - 1, by omega⟩
    rw [dfs_succ, dfs_succ]
    by_cases hn : node ∈ v
    · rw [if_pos hn, if_pos hn]
    · rw [if_neg hn, if_neg hn]
      have hadj : ∀ nb ∈ adjOf g node, nb ∈ U := by
        intro nb hnb
        unfold adjOf at hnb
        by_cases hk : node ∈ g.keys
        · rw [if_pos hk] at hnb; exact hU node hk nb hnb
        · rw [if_neg hk] at hnb; cases hnb
      have hstrict := avail_append_lt hnode hn
      exact foldl_stabilize g U f f₂'
        (fun node' v' hn' ha' => ih f₂' node' v' hn' ha' (by omega))
        (dfs_visited_mono g f)
        (adjOf g node) hadj ([node], v ++ [node])
        (show avail U (v ++ [node]) < f by omega)

theorem universe_mem {g : Graph} {k x : String} (hk : k ∈ g.keys) (hx : x ∈ g.adj k) :
    x ∈ universeOf g := by
  unfold universeOf
  have main : ∀ (l : List String) (acc : List String),
      (k ∈ l ∧ x ∈ g.adj k) ∨ x ∈ acc →
      x ∈ l.foldl (fun acc k => acc ++ g.adj k) acc := by
    intro l
    induction l with
    | nil =>
      intro acc h
      rcases h with ⟨h, _⟩ | h
      · cases h
      · exact h
    | cons y l ih =>
      intro acc h
      rw [List.foldl_cons]
      rcases h with ⟨hy, hadj⟩ | h
      · rcases List.mem_cons.mp hy with rfl | hy
        · exact ih _ (Or.inr (List.mem_append_right _ hadj))
        · exact ih _ (Or.inl ⟨hy, hadj⟩)
      · exact ih _ (Or.inr (List.mem_append_left _ h))
  exact main g.keys g.keys (Or.inl ⟨hk, hx⟩)

/-- `dfsFuel` is always enough: any two fuels at least `dfsFuel g` give the
same traversal from any start and the empty visited set. -/
theorem dfs_fuel_stable (g : Graph) (start : String) (f₁ f₂ : Nat)
    (h1 : dfsFuel g ≤ f₁) (h2 : f₁ ≤ f₂) : dfs g f₁ start [] = dfs g f₂ start [] := by
  apply dfs_stabilize g (start :: universeOf g)
  · intro k hk x hx
    exact List.mem_cons_of_mem _ (universe_mem hk hx)
  · exact List.mem_cons_self _ _
  · unfold avail
    simp only [List.toFinset_nil, Finset.sdiff_empty]
    calc (start :: universeOf g).toFinset.card
        ≤ (start :: universeOf g).length := List.toFinset_card_le _
      _ = (universeOf g).length + 1 := by simp
      _ < dfsFuel g := by unfold dfsFuel; omega
      _ ≤ f₁ := h1
  · exact h2

/-! ### Characterization of `calculate_score` -/

/-- Closed form of `calculate_score`: it never raises (never `none`),
returns `(0, 0)` exactly in the two degenerate cases, and otherwise the
pair (seen count, 1 / mean overlap). -/
theorem calculate_score_eq (movie : String) (friends : List (List String)) (g : Graph) :
    calculate_score movie friends g =
      some (if seenCount movie friends = 0 ∨ countedOf movie friends g = [] then ((0 : ℚ), (0 : ℚ))
        else ((seenCount movie friends : ℚ),
          1 / ((totalOf movie friends g : ℚ) / ((countedOf movie friends g).length : ℚ)))) := by
  have hm : movie ∈ runDfs g movie := runDfs_self_mem g movie
  simp only [calculate_score, seenCount, countedOf, totalOf, clusterOf]
  rw [if_pos hm]
  by_cases h0 : (friends.filter (fun f => decide (movie ∈ f))).length = 0
  · rw [if_pos h0, if_pos (Or.inl h0)]
  · rw [if_neg h0]
    by_cases h1 :
        (friends.filter (fun f => decide (0 < overlap f ((runDfs g movie).erase movie)))).length = 0
    · rw [if_pos h1, if_pos (Or.inr (List.length_eq_zero.mp h1))]
    · rw [if_neg h1, if_neg ?_]
      push_neg
      exact ⟨h0, fun h => h1 (by rw [h]; rfl)⟩

theorem length_le_sum_map (l : List (List String)) (f : List String → Nat)
    (h : ∀ x ∈ l, 1 ≤ f x) : l.length ≤ (l.map f).sum := by
  induction l with
  | nil => simp
  | cons x l ih =>
    simp only [List.map_cons, List.sum_cons, List.length_cons]
    have h1 := h x (List.mem_cons_self _ _)
    have h2 := ih (fun y hy => h y (List.mem_cons_of_mem _ hy))
    omega

/-- Each counted peer contributes at least 1 to the total overlap. -/
theorem counted_le_total (movie : String) (friends : List (List String)) (g : Graph) :
    (countedOf movie friends g).length ≤ totalOf movie friends g := by
  apply length_le_sum_map
  intro x hx
  have hd := List.of_mem_filter hx
  have := of_decide_eq_true hd
  omega

theorem ratio_bounds {total cnt : Nat} (h1 : 1 ≤ cnt) (h2 : cnt ≤ total) :
    0 < 1 / ((total : ℚ) / (cnt : ℚ)) ∧ 1 / ((total : ℚ) / (cnt : ℚ)) ≤ 1 := by
  have hc : (0 : ℚ) < (cnt : ℚ) := by exact_mod_cast Nat.lt_of_lt_of_le Nat.zero_lt_one h1
  have hct : (cnt : ℚ) ≤ (total : ℚ) := by exact_mod_cast h2
  have hdiv : (1 : ℚ) ≤ (total : ℚ) / (cnt : ℚ) := (le_div_iff₀ hc).mpr (by linarith)
  constructor
  · exact one_div_pos.mpr (by linarith)
  · rw [div_le_one (by linarith)]
    exact hdiv

/-- In the non-degenerate case the uniqueness is strictly positive (and at
most 1) and the score is at least 1. -/
theorem calculate_score_pos_of (movie : String) (friends : List (List String)) (g : Graph)
    (h0 : seenCount movie friends ≠ 0) (h1 : countedOf movie friends g ≠ []) :
    ∃ s u, calculate_score movie friends g = some (s, u) ∧ 0 < u ∧ u ≤ 1 ∧ 1 ≤ s := by
  rw [calculate_score_eq]
  rw [if_neg (by tauto)]
  have hcnt : 1 ≤ (countedOf movie friends g).length :=
    List.length_pos.mpr h1
  obtain ⟨hu1, hu2⟩ := ratio_bounds hcnt (counted_le_total movie friends g)
  exact ⟨_, _, rfl, hu1, hu2, by exact_mod_cast Nat.one_le_iff_ne_zero.mpr h0⟩

/-! ### The recommendation loop -/

theorem pickOf_some_of {friends : List (List String)} {g : Graph} {m : String} {s u : ℚ}
    (h : calculate_score m friends g = some (s, u)) (hu : u ≠ 0) :
    pickOf friends g m = some (m, s / u) := by
  simp [pickOf, h, hu]

theorem foldlM_score_cons (friends : List (List String)) (g : Graph) (m : String)
    (ms : List String) (acc : List (String × ℚ)) (r : ℚ × ℚ)
    (hr : calculate_score m friends g = some r) :
    ((m :: ms).foldlM
      (fun acc movie => do
        let su ← calculate_score movie friends g
        pure (if su.2 ≠ 0 then acc ++ [(movie, su.1 / su.2)] else acc))
      acc : Option (List (String × ℚ)))
    = (ms.foldlM
      (fun acc movie => do
        let su ← calculate_score movie friends g
        pure (if su.2 ≠ 0 then acc ++ [(movie, su.1 / su.2)] else acc))
      (if r.2 ≠ 0 then acc ++ [(m, r.1 / r.2)] else acc)) := by
  rw [List.foldlM_cons, hr]
  rfl

/-- `calculate_score` never raises, so the loop of `recommend_movie`
computes exactly the filtered candidate list `recList`. -/
theorem recommendationsOf_eq (movies : List String) (friends : List (List String)) (g : Graph) :
    recommendationsOf movies friends g = some (recList movies friends g) := by
  unfold recommendationsOf recList
  have main : ∀ (ms : List String) (acc : List (String × ℚ)),
      (ms.foldlM
        (fun acc movie => do
          let su ← calculate_score movie friends g
          pure (if su.2 ≠ 0 then acc ++ [(movie, su.1 / su.2)] else acc))
        acc : Option (List (String × ℚ)))
        = some (acc ++ ms.filterMap (pickOf friends g)) := by
    intro ms
    induction ms with
    | nil => intro acc; simp
    | cons m ms ih =>
      intro acc
      obtain ⟨⟨s, u⟩, hr⟩ : ∃ r, calculate_score m friends g = some r :=
        ⟨_, calculate_score_eq m friends g⟩
      rw [foldlM_score_cons friends g m ms acc (s, u) hr]
      by_cases hz : u = 0
      · rw [if_neg (not_not_intro hz), ih acc,
          List.filterMap_cons_none (by simp [pickOf, hr, hz])]
      · rw [if_pos hz, ih _,
          List.filterMap_cons_some (pickOf_some_of hr hz)]
        simp
  simpa using main movies []

theorem mem_recList_iff {movies : List String} {friends : List (List String)} {g : Graph}
    {p : String × ℚ} :
    p ∈ recList movies friends g ↔ ∃ m ∈ movies, pickOf friends g m = some p := by
  unfold recList
  rw [List.mem_filterMap]

theorem pickOf_inv {friends : List (List String)} {g : Graph} {m : String} {p : String × ℚ}
    (h : pickOf friends g m = some p) :
    p.1 = m ∧ ∃ s u, calculate_score m friends g = some (s, u) ∧ u ≠ 0 ∧ p.2 = s / u := by
  unfold pickOf at h
  obtain ⟨⟨s₀, u₀⟩, hr⟩ : ∃ r, calculate_score m friends g = some r :=
    ⟨_, calculate_score_eq m friends g⟩
  rw [hr] at h
  by_cases hz : u₀ = 0
  · simp [hz] at h
  · simp only [hz, ne_eq, not_false_eq_true, if_pos] at h
    obtain rfl : (m, s₀ / u₀) = p := by
      simpa using h
    exact ⟨rfl, s₀, u₀, hr, hz, rfl⟩

/-- Python's `max` picks an element of the list. -/
theorem pymax_mem (x : String × ℚ) (l : List (String × ℚ)) : pymax x l ∈ x :: l := by
  induction l generalizing x with
  | nil => simp [pymax]
  | cons y l ih =>
    have hstep : pymax x (y :: l) = pymax (if x.2 < y.2 then y else x) l := rfl
    rw [hstep]
    rcases List.mem_cons.mp (ih (if x.2 < y.2 then y else x)) with h | h
    · rw [h]
      by_cases hxy : x.2 < y.2
      · rw [if_pos hxy]
        exact List.mem_cons_of_mem _ (List.mem_cons_self _ _)
      · rw [if_neg hxy]
        exact List.mem_cons_self _ _
    · exact List.mem_cons_of_mem _ (List.mem_cons_of_mem _ h)

/-- Python's `max` with a key returns the first element attaining the
maximum: its value bounds the whole list, and every element strictly before
it is strictly smaller. -/
theorem pymax_spec (l : List (String × ℚ)) :
    ∀ x : String × ℚ,
      (∀ z ∈ x :: l, z.2 ≤ (pymax x l).2) ∧
      ∃ l₁ l₂, x :: l = l₁ ++ (pymax x l) :: l₂ ∧ ∀ z ∈ l₁, z.2 < (pymax x l).2 := by
  induction l with
  | nil =>
    intro x
    constructor
    · intro z hz
      rcases List.mem_singleton.mp hz with rfl
      exact le_refl _
    · exact ⟨[], [], rfl, by simp⟩
  | cons y l ih =>
    intro x
    have hstep : pymax x (y :: l) = pymax (if x.2 < y.2 then y else x) l := rfl
    by_cases hxy : x.2 < y.2
    · rw [if_pos hxy] at hstep
      obtain ⟨hbound, l₁, l₂, hsplit, hstrict⟩ := ih y
      rw [hstep]
      have hyb : y.2 ≤ (pymax y l).2 := hbound y (List.mem_cons_self _ _)
      constructor
      · intro z hz
        rcases List.mem_cons.mp hz with rfl | hz
        · exact le_of_lt (lt_of_lt_of_le hxy hyb)
        · exact hbound z hz
      · refine ⟨x :: l₁, l₂, ?_, ?_⟩
        · rw [List.cons_append, ← hsplit]
        · intro z hz
          rcases List.mem_cons.mp hz with rfl | hz
          · exact lt_of_lt_of_le hxy hyb
          · exact hstrict z hz
    · rw [if_neg hxy] at hstep
      obtain ⟨hbound, l₁, l₂, hsplit, hstrict⟩ := ih x
      rw [hstep]
      have hxb : x.2 ≤ (pymax x l).2 := hbound x (List.mem_cons_self _ _)
      constructor
      · intro z hz
        rcases List.mem_cons.mp hz with rfl | hz
        · exact hxb
        · rcases List.mem_cons.mp hz with rfl | hz
          · exact le_trans (not_lt.mp hxy) hxb
          · exact hbound z (List.mem_cons_of_mem _ hz)
      · cases l₁ with
        | nil =>
          obtain ⟨hx, hl⟩ : x = pymax x l ∧ l = l₂ := by
            rw [List.nil_append] at hsplit
            exact ⟨List.head_eq_of_cons_eq hsplit, List.tail_eq_of_cons_eq hsplit⟩
          refine ⟨[], y :: l, ?_, by simp⟩
          rw [List.nil_append, ← hx]
        | cons a t =>
          obtain ⟨hx, hl⟩ : x = a ∧ l = t ++ pymax x l :: l₂ := by
            rw [List.cons_append] at hsplit
            exact ⟨List.head_eq_of_cons_eq hsplit, List.tail_eq_of_cons_eq hsplit⟩
          have hab : a.2 < (pymax x l).2 := hstrict a (List.mem_cons_self _ _)
          have hxlt : x.2 < (pymax x l).2 := by
            rw [show x.2 = a.2 from congrArg Prod.snd hx]
            exact hab
          have hylt : y.2 < (pymax x l).2 := lt_of_le_of_lt (not_lt.mp hxy) hxlt
          refine ⟨x :: y :: t, l₂, ?_, ?_⟩
          · conv_lhs => rw [hl]
            simp [List.cons_append]
          · intro z hz
            rcases List.mem_cons.mp hz with rfl | hz
            · exact hxlt
            · rcases List.mem_cons.mp hz with rfl | hz
              · exact hylt
              · exact hstrict z (List.mem_cons_of_mem _ hz)

/-- When the candidate list is empty, `recommend_movie` returns the
sentinel. -/
theorem recommend_movie_nil {movies : List String} {sims : List (String × String)}
    {friends : List (List String)}
    (h : recList movies friends (build_graph movies sims) = []) :
    recommend_movie movies sims friends = some "No movie to recommend" := by
  simp [recommend_movie, recommendationsOf_eq, h]

/-- When the candidate list is nonempty, `recommend_movie` returns the
Python `max`. -/
theorem recommend_movie_cons {movies : List String} {sims : List (String × String)}
    {friends : List (List String)} {r : String × ℚ} {rs : List (String × ℚ)}
    (h : recList movies friends (build_graph movies sims) = r :: rs) :
    recommend_movie movies sims friends = some (pymax r rs).1 := by
  simp [recommend_movie, recommendationsOf_eq, h]

/-- If some movie of the catalog scores with nonzero uniqueness, the
recommendation is a catalog member. -/
theorem recommend_mem_of_candidate {movies : List String} {sims : List (String × String)}
    {friends : List (List String)} {m : String} {s u : ℚ}
    (hm : m ∈ movies)
    (hcs : calculate_score m friends (build_graph movies sims) = some (s, u))
    (hu : u ≠ 0) :
    ∃ r, recommend_movie movies sims friends = some r ∧ r ∈ movies := by
  have hp : (m, s / u) ∈ recList movies friends (build_graph movies sims) :=
    mem_recList_iff.mpr ⟨m, hm, pickOf_some_of hcs hu⟩
  obtain ⟨r, rs, hcons⟩ :
      ∃ r rs, recList movies friends (build_graph movies sims) = r :: rs := by
    cases h : recList movies friends (build_graph movies sims) with
    | nil => rw [h] at hp; cases hp
    | cons a b => exact ⟨a, b, rfl⟩
  refine ⟨(pymax r rs).1, recommend_movie_cons hcons, ?_⟩
  have hmem : pymax r rs ∈ r :: rs := pymax_mem r rs
  rw [← hcons] at hmem
  obtain ⟨m', hm', hpick⟩ := mem_recList_iff.mp hmem
  rw [(pickOf_inv hpick).1]
  exact hm'

/-! ### The threaded traversal never mutates a closed graph -/

/-- The body of the neighbour loop of `dfsT` at fuel `f`. -/
def dfsTStep (f : Nat) (acc : List String × List String × Graph) (nb : String) :
    List String × List String × Graph :=
  let r := dfsT f nb acc.2.2 acc.2.1
  (sunion acc.1 r.1, r.2.1, r.2.2)

theorem dfsT_succ (f : Nat) (node : String) (g : Graph) (visited : List String) :
    dfsT (f + 1) node g visited =
      if node ∈ visited then ([], visited, g)
      else (getItem g node).1.foldl (dfsTStep f)
        ([node], visited ++ [node], (getItem g node).2) := rfl

theorem dfsT_foldl_eq (g : Graph) (f : Nat)
    (ih : ∀ node v, node ∈ g.keys ∨ node ∈ v →
      dfsT f node g v = ((dfs g f node v).1, (dfs g f node v).2, g)) :
    ∀ l : List String, (∀ nb ∈ l, nb ∈ g.keys) →
      ∀ (res v : List String),
        l.foldl (dfsTStep f) (res, v, g) =
          ((l.foldl (dfsStep g f) (res, v)).1, (l.foldl (dfsStep g f) (res, v)).2, g) := by
  intro l
  induction l with
  | nil => intro _ res v; rfl
  | cons nb l ihl =>
    intro hl res v
    rw [List.foldl_cons, List.foldl_cons]
    have hnb := hl nb (List.mem_cons_self _ _)
    have hrec := ih nb v (Or.inl hnb)
    have hstepT : dfsTStep f (res, v, g) nb
        = (sunion res (dfs g f nb v).1, (dfs g f nb v).2, g) := by
      simp only [dfsTStep]
      rw [hrec]
    have hstepP : dfsStep g f (res, v) nb
        = (sunion res (dfs g f nb v).1, (dfs g f nb v).2) := rfl
    rw [hstepT, hstepP]
    exact ihl (fun x hx => hl x (List.mem_cons_of_mem _ hx)) _ _

/-- On a closed graph, the threaded traversal computes the same result and
visited set as the pure one and hands the graph back unchanged: every
`graph[node]` access hits an existing key, so the `defaultdict` never
vivifies. -/
theorem dfsT_eq (g : Graph) (hcl : Closed g) :
    ∀ (f : Nat) (node : String) (v : List String), node ∈ g.keys ∨ node ∈ v →
      dfsT f node g v = ((dfs g f node v).1, (dfs g f node v).2, g) := by
  intro f
  induction f with
  | zero => intro node v _; rfl
  | succ f ih =>
    intro node v h
    rw [dfsT_succ, dfs_succ]
    by_cases hn : node ∈ v
    · rw [if_pos hn, if_pos hn]
    · rw [if_neg hn, if_neg hn]
      rcases h with h | h
      · have hget : getItem g node = (g.adj node, g) := by simp [getItem, h]
        have hadj : adjOf g node = g.adj node := by simp [adjOf, h]
        rw [hget, hadj]
        exact dfsT_foldl_eq g f ih (g.adj node) (fun nb hnb => hcl node h nb hnb)
          [node] (v ++ [node])
      · exact absurd h hn

/-- On a closed graph, scoring a key with the threaded scorer returns the
pure score and leaves the graph untouched. -/
theorem calculate_scoreT_eq (movie : String) (friends : List (List String)) (g : Graph)
    (hcl : Closed g) (hkey : movie ∈ g.keys) :
    calculate_scoreT movie friends g = (calculate_score movie friends g, g) := by
  have ht := dfsT_eq g hcl (dfsFuel g) movie [] (Or.inl hkey)
  have hm : movie ∈ (dfs g (dfsFuel g) movie []).1 := runDfs_self_mem g movie
  simp only [calculate_scoreT, calculate_score, ht, runDfs]
  by_cases h0 : (friends.filter (fun f => decide (movie ∈ f))).length = 0
  · rw [if_pos h0, if_pos h0]
  · rw [if_neg h0, if_neg h0, if_pos hm, if_pos hm]
    by_cases h1 :
        (friends.filter (fun f =>
          decide (0 < overlap f ((dfs g (dfsFuel g) movie []).1.erase movie)))).length = 0
    · rw [if_pos h1, if_pos h1]
    · rw [if_neg h1, if_neg h1]

/-! ### Helpers for nonzero candidates -/

theorem seenCount_ne_zero {m : String} {friends : List (List String)} {f : List String}
    (hf : f ∈ friends) (hm : m ∈ f) : seenCount m friends ≠ 0 := by
  have hmem : f ∈ friends.filter (fun f => decide (m ∈ f)) :=
    List.mem_filter.mpr ⟨hf, decide_eq_true hm⟩
  unfold seenCount
  intro hlen
  rw [List.length_eq_zero] at hlen
  rw [hlen] at hmem
  cases hmem

theorem countedOf_ne_nil {m b : String} {friends : List (List String)} {g : Graph}
    {f : List String} (hf : f ∈ friends) (hb : b ∈ f) (hcl : b ∈ clusterOf g m) :
    countedOf m friends g ≠ [] := by
  have hov : 0 < overlap f (clusterOf g m) := by
    have hmem : b ∈ (sdedup f).filter (fun x => decide (x ∈ clusterOf g m)) :=
      List.mem_filter.mpr ⟨mem_sdedup.mpr hb, decide_eq_true hcl⟩
    exact List.length_pos.mpr (List.ne_nil_of_mem hmem)
  exact List.ne_nil_of_mem (List.mem_filter.mpr ⟨hf, decide_eq_true hov⟩)

theorem cluster_of_adj {g : Graph} {a b : String} (hkey : a ∈ g.keys) (hab : b ≠ a)
    (hadj : b ∈ g.adj a) : b ∈ clusterOf g a := by
  unfold clusterOf
  rw [List.mem_erase_of_ne hab]
  apply runDfs_adj_mem g
  unfold adjOf
  rw [if_pos hkey]
  exact hadj

/-! ### The claims -/

/-- Claim C1: on the worked example (the catalog, similarity pairs and six
peer histories of the `__main__` block), `recommend_movie` returns exactly
the string "Lock, Stock and Two Smoking Barrels". -/
theorem claim1_worked_example :
    recommend_movie exMovies exSimilarities exFriends =
      some "Lock, Stock and Two Smoking Barrels" := by
  with_unfolding_all decide

/-- Claim C2, counterexample: with catalog ["A", "B"], the single pair
(A, B) and the single peer history ["A"], all items are pairwise similar
and the peer history overlaps item B's similarity cluster, yet
`recommend_movie` returns the sentinel, which is not a member of the
catalog.  The claim as stated is therefore false. -/
theorem claim2_counterexample :
    (∀ a ∈ ["A", "B"], ∀ b ∈ ["A", "B"], a ≠ b →
      (a, b) ∈ [("A", "B")] ∨ (b, a) ∈ [("A", "B")]) ∧
    (∃ f ∈ [["A"]], ∃ m ∈ ["A", "B"],
      ∃ x ∈ f, x ∈ clusterOf (build_graph ["A", "B"] [("A", "B")]) m) ∧
    recommend_movie ["A", "B"] [("A", "B")] [["A"]] = some "No movie to recommend" ∧
    "No movie to recommend" ∉ ["A", "B"] := by
  with_unfolding_all decide

/-- Claim C2 (amended): for a pairwise-similar catalog, `recommend_movie`
returns a catalog member provided some item is contained in a peer history
AND some other item is contained in a (possibly different) peer history:
the overlap hypothesis must concern an item that some peer has also seen,
otherwise every score degenerates to (0, 0) as the counterexample shows. -/
theorem claim2_fully_connected_amended (movies : List String) (sims : List (String × String))
    (friends : List (List String))
    (hfull : ∀ a ∈ movies, ∀ b ∈ movies, a ≠ b → (a, b) ∈ sims ∨ (b, a) ∈ sims)
    (hov : ∃ m ∈ movies, (∃ f ∈ friends, m ∈ f) ∧
      ∃ mb ∈ movies, mb ≠ m ∧ ∃ f ∈ friends, mb ∈ f) :
    ∃ r, recommend_movie movies sims friends = some r ∧ r ∈ movies := by
  obtain ⟨m, hm, ⟨fm, hfm, hmf⟩, mb, hmb, hne, fb, hfb, hbf⟩ := hov
  have hadj : mb ∈ (build_graph movies sims).adj m := by
    rcases hfull m hm mb hmb (Ne.symm hne) with hp | hp
    · exact (pair_mem_build hp).1
    · exact (pair_mem_build hp).2
  have hkey : m ∈ (build_graph movies sims).keys := movie_mem_keys_build hm
  have hcluster : mb ∈ clusterOf (build_graph movies sims) m :=
    cluster_of_adj hkey hne hadj
  obtain ⟨s, u, hcs, hu, _, _⟩ :=
    calculate_score_pos_of m friends (build_graph movies sims)
      (seenCount_ne_zero hfm hmf) (countedOf_ne_nil hfb hbf hcluster)
  exact recommend_mem_of_candidate hm hcs (ne_of_gt hu)

/-- Witness for the amended claim C2 at a concrete input. -/
theorem claim2_fully_connected_amended_witness :
    ∃ r, recommend_movie ["A", "B"] [("A", "B")] [["A"], ["B"]] = some r ∧
      r ∈ ["A", "B"] :=
  claim2_fully_connected_amended ["A", "B"] [("A", "B")] [["A"], ["B"]]
    (by decide) (by decide)

/-- Claim C3, counterexample: with the non-empty catalog ["A"], no
similarity pairs and the single peer history ["A"], the peers collectively
cover every catalog item, yet `recommend_movie` returns the sentinel, which
is not a member of the catalog.  The claim as stated is therefore false. -/
theorem claim3_counterexample :
    (["A"] ≠ ([] : List String)) ∧
    (∀ m ∈ ["A"], ∃ f ∈ [["A"]], m ∈ f) ∧
    recommend_movie ["A"] [] [["A"]] = some "No movie to recommend" ∧
    "No movie to recommend" ∉ ["A"] := by
  with_unfolding_all decide

/-- Claim C3 (amended): when the peer histories collectively cover every
item of a non-empty catalog AND at least one similarity pair joins two
distinct catalog items, `recommend_movie` returns a catalog member; without
any similarity pair every cluster is empty and the sentinel is returned, as
the counterexample shows. -/
theorem claim3_coverage_amended (movies : List String) (sims : List (String × String))
    (friends : List (List String))
    (hne : movies ≠ [])
    (hcov : ∀ m ∈ movies, ∃ f ∈ friends, m ∈ f)
    (hpair : ∃ p ∈ sims, p.1 ∈ movies ∧ p.2 ∈ movies ∧ p.1 ≠ p.2) :
    ∃ r, recommend_movie movies sims friends = some r ∧ r ∈ movies := by
  obtain ⟨⟨a, b⟩, hp, ha, hb, hab⟩ := hpair
  have hadj : b ∈ (build_graph movies sims).adj a := (pair_mem_build hp).1
  have hkey : a ∈ (build_graph movies sims).keys := movie_mem_keys_build ha
  have hcluster : b ∈ clusterOf (build_graph movies sims) a :=
    cluster_of_adj hkey (Ne.symm hab) hadj
  obtain ⟨fa, hfa, haf⟩ := hcov a ha
  obtain ⟨fb, hfb, hbf⟩ := hcov b hb
  obtain ⟨s, u, hcs, hu, _, _⟩ :=
    calculate_score_pos_of a friends (build_graph movies sims)
      (seenCount_ne_zero hfa haf) (countedOf_ne_nil hfb hbf hcluster)
  exact recommend_mem_of_candidate ha hcs (ne_of_gt hu)

/-- Witness for the amended claim C3 at a concrete input. -/
theorem claim3_coverage_amended_witness :
    ∃ r, recommend_movie ["A", "B"] [("A", "B")] [["A", "B"]] = some r ∧
      r ∈ ["A", "B"] :=
  claim3_coverage_amended ["A", "B"] [("A", "B")] [["A", "B"]]
    (by decide) (by decide) ⟨("A", "B"), by decide, by decide, by decide, by decide⟩

/-- Claim C4: whenever the candidate list (the items with nonzero novelty,
in catalog order, each valued score / novelty) is nonempty,
`recommend_movie` returns the first candidate attaining the maximal ratio:
its value bounds the whole list and everything strictly before it in
catalog order is strictly smaller. -/
theorem claim4_argmax_first (movies : List String) (sims : List (String × String))
    (friends : List (List String)) (r : String × ℚ) (rs : List (String × ℚ))
    (h : recList movies friends (build_graph movies sims) = r :: rs) :
    ∃ best l₁ l₂,
      recommend_movie movies sims friends = some best.1 ∧
      r :: rs = l₁ ++ best :: l₂ ∧
      (∀ z ∈ r :: rs, z.2 ≤ best.2) ∧
      (∀ z ∈ l₁, z.2 < best.2) ∧
      (∀ z ∈ r :: rs, z.1 ∈ movies ∧
        ∃ s u, calculate_score z.1 friends (build_graph movies sims) = some (s, u) ∧
          u ≠ 0 ∧ z.2 = s / u) := by
  obtain ⟨hbound, l₁, l₂, hsplit, hstrict⟩ := pymax_spec rs r
  refine ⟨pymax r rs, l₁, l₂, recommend_movie_cons h, hsplit, hbound, hstrict, ?_⟩
  intro z hz
  rw [← h] at hz
  obtain ⟨m, hm, hpick⟩ := mem_recList_iff.mp hz
  obtain ⟨h1, s, u, hcs, hu, h2⟩ := pickOf_inv hpick
  refine ⟨by rw [h1]; exact hm, s, u, by rw [h1]; exact hcs, hu, h2⟩

/-- Witness for claim C4 at a concrete input. -/
theorem claim4_argmax_first_witness :
    ∃ best l₁ l₂,
      recommend_movie ["A", "B"] [("A", "B")] [["A"], ["B"]] = some best.1 ∧
      ("A", (1 : ℚ)) :: [("B", (1 : ℚ))] = l₁ ++ best :: l₂ ∧
      (∀ z ∈ ("A", (1 : ℚ)) :: [("B", (1 : ℚ))], z.2 ≤ best.2) ∧
      (∀ z ∈ l₁, z.2 < best.2) ∧
      (∀ z ∈ ("A", (1 : ℚ)) :: [("B", (1 : ℚ))], z.1 ∈ ["A", "B"] ∧
        ∃ s u, calculate_score z.1 [["A"], ["B"]]
            (build_graph ["A", "B"] [("A", "B")]) = some (s, u) ∧
          u ≠ 0 ∧ z.2 = s / u) :=
  claim4_argmax_first ["A", "B"] [("A", "B")] [["A"], ["B"]]
    ("A", 1) [("B", 1)] (by with_unfolding_all decide)

/-- Claim C5: for every item, peers list and graph, `calculate_score`
raises no exception (always returns a value); it returns exactly (0, 0)
when no peer's history contains the item or no peer's history positively
intersects the item's similarity cluster, and otherwise returns the pair
(seen count, 1 / mean overlap). -/
theorem claim5_score_total (movie : String) (friends : List (List String)) (g : Graph) :
    calculate_score movie friends g =
      some (if seenCount movie friends = 0 ∨ countedOf movie friends g = []
        then ((0 : ℚ), (0 : ℚ))
        else ((seenCount movie friends : ℚ),
          1 / ((totalOf movie friends g : ℚ) / ((countedOf movie friends g).length : ℚ)))) :=
  calculate_score_eq movie friends g

/-- Claim C6: for every similarity pair (a, b) of the input, the graph
traversal from either endpoint reaches the other: b is in dfs(a, graph, {})
and a is in dfs(b, graph, {}). -/
theorem claim6_pair_in_dfs (movies : List String) (sims : List (String × String))
    (a b : String) (h : (a, b) ∈ sims) :
    b ∈ runDfs (build_graph movies sims) a ∧ a ∈ runDfs (build_graph movies sims) b := by
  obtain ⟨hba, hab⟩ := pair_mem_build h
  obtain ⟨hbk, hak⟩ := (graphInv_build movies sims).2.2 a b hba
  constructor
  · apply runDfs_adj_mem
    unfold adjOf
    rw [if_pos hak]
    exact hba
  · apply runDfs_adj_mem
    unfold adjOf
    rw [if_pos hbk]
    exact hab

/-- Witness for claim C6 at a concrete input. -/
theorem claim6_pair_in_dfs_witness :
    "B" ∈ runDfs (build_graph ["A", "B"] [("A", "B")]) "A" ∧
    "A" ∈ runDfs (build_graph ["A", "B"] [("A", "B")]) "B" :=
  claim6_pair_in_dfs ["A", "B"] [("A", "B")] "A" "B" (by decide)

/-- Claim C7: the traversal terminates on every finite graph, cycles
included: the fuel-indexed approximations of the recursion agree for all
fuels at least `dfsFuel g`, so the recursion has a well-defined value
reached in finitely many steps. -/
theorem claim7_dfs_terminates (g : Graph) (start : String) (f₁ f₂ : Nat)
    (h1 : dfsFuel g ≤ f₁) (h2 : f₁ ≤ f₂) :
    dfs g f₁ start [] = dfs g f₂ start [] :=
  dfs_fuel_stable g start f₁ f₂ h1 h2

/-- Witness for claim C7 at a concrete cyclic graph. -/
theorem claim7_dfs_terminates_witness :
    dfs (build_graph ["A", "B", "C"] [("A", "B"), ("B", "C"), ("C", "A")])
        (dfsFuel (build_graph ["A", "B", "C"] [("A", "B"), ("B", "C"), ("C", "A")])) "A" []
      = dfs (build_graph ["A", "B", "C"] [("A", "B"), ("B", "C"), ("C", "A")])
        (dfsFuel (build_graph ["A", "B", "C"] [("A", "B"), ("B", "C"), ("C", "A")]) + 5)
        "A" [] :=
  claim7_dfs_terminates _ "A" _ _ (le_refl _) (Nat.le_add_right _ 5)

/-- Claim C8: the built graph has every listed movie as a key, a reflexive
self-loop on every key, and symmetric edges between distinct nodes. -/
theorem claim8_graph_invariants (movies : List String) (sims : List (String × String)) :
    (∀ m ∈ movies, m ∈ (build_graph movies sims).keys) ∧
    (∀ k ∈ (build_graph movies sims).keys, k ∈ (build_graph movies sims).adj k) ∧
    (∀ a b : String, a ≠ b →
      (b ∈ (build_graph movies sims).adj a ↔ a ∈ (build_graph movies sims).adj b)) :=
  ⟨fun _ hm => movie_mem_keys_build hm,
   fun k hk => (graphInv_build movies sims).1 k hk,
   fun a b _ => (graphInv_build movies sims).2.1 a b⟩

/-- Witness for claim C8 at a concrete input. -/
theorem claim8_graph_invariants_witness :
    "A" ∈ (build_graph ["A", "B"] [("A", "B")]).keys ∧
    "A" ∈ (build_graph ["A", "B"] [("A", "B")]).adj "A" ∧
    ("B" ∈ (build_graph ["A", "B"] [("A", "B")]).adj "A" ↔
      "A" ∈ (build_graph ["A", "B"] [("A", "B")]).adj "B") := by
  obtain ⟨h1, h2, h3⟩ := claim8_graph_invariants ["A", "B"] [("A", "B")]
  exact ⟨h1 "A" (by decide), h2 "A" (h1 "A" (by decide)), h3 "A" "B" (by decide)⟩

/-- Claim C9: during one invocation of `recommend_movie`, the graph is
read-only after construction: for every scored movie of the catalog, the
graph-threaded traversal and scorer hand back exactly the graph
`build_graph` returned (and compute the same value as the pure scorer). -/
theorem claim9_graph_readonly (movies : List String) (sims : List (String × String))
    (friends : List (List String)) (movie : String) (hm : movie ∈ movies) :
    (dfsT (dfsFuel (build_graph movies sims)) movie (build_graph movies sims) []).2.2
        = build_graph movies sims ∧
    calculate_scoreT movie friends (build_graph movies sims)
        = (calculate_score movie friends (build_graph movies sims),
            build_graph movies sims) := by
  have hcl := closed_build movies sims
  have hkey : movie ∈ (build_graph movies sims).keys := movie_mem_keys_build hm
  constructor
  · rw [dfsT_eq _ hcl _ _ _ (Or.inl hkey)]
  · exact calculate_scoreT_eq movie friends _ hcl hkey

/-- Witness for claim C9 at a concrete input. -/
theorem claim9_graph_readonly_witness :
    (dfsT (dfsFuel (build_graph ["A", "B"] [("A", "B")])) "A"
        (build_graph ["A", "B"] [("A", "B")]) []).2.2
      = build_graph ["A", "B"] [("A", "B")] ∧
    calculate_scoreT "A" [["A"]] (build_graph ["A", "B"] [("A", "B")])
      = (calculate_score "A" [["A"]] (build_graph ["A", "B"] [("A", "B")]),
          build_graph ["A", "B"] [("A", "B")]) :=
  claim9_graph_readonly ["A", "B"] [("A", "B")] [["A"]] "A" (by decide)

/-- Claim C10: whenever `calculate_score` returns a nonzero novelty, the
score is at least 1 and the novelty lies in the half-open interval (0, 1]:
each counted peer contributes at least 1 to the overlap total, so the mean
overlap is at least 1 and its reciprocal is positive and at most 1. -/
theorem claim10_score_bounds (movie : String) (friends : List (List String)) (g : Graph)
    (s u : ℚ) (h : calculate_score movie friends g = some (s, u)) (hu : u ≠ 0) :
    1 ≤ s ∧ 0 < u ∧ u ≤ 1 := by
  rw [calculate_score_eq] at h
  by_cases hdeg : seenCount movie friends = 0 ∨ countedOf movie friends g = []
  · rw [if_pos hdeg] at h
    injection h with h
    obtain rfl : (0 : ℚ) = u := congrArg Prod.snd h
    exact absurd rfl hu
  · rw [if_neg hdeg] at h
    push_neg at hdeg
    obtain ⟨h0, h1⟩ := hdeg
    injection h with h
    have hs : (seenCount movie friends : ℚ) = s := congrArg Prod.fst h
    have hu2 : 1 / ((totalOf movie friends g : ℚ) /
        ((countedOf movie friends g).length : ℚ)) = u := congrArg Prod.snd h
    have hcnt : 1 ≤ (countedOf movie friends g).length := List.length_pos.mpr h1
    obtain ⟨hp, hle⟩ := ratio_bounds hcnt (counted_le_total movie friends g)
    refine ⟨?_, ?_, ?_⟩
    · rw [← hs]
      exact_mod_cast Nat.one_le_iff_ne_zero.mpr h0
    · rw [← hu2]
      exact hp
    · rw [← hu2]
      exact hle

/-- Witness for claim C10 at a concrete input. -/
theorem claim10_score_bounds_witness :
    1 ≤ (1 : ℚ) ∧ 0 < (1 : ℚ) ∧ (1 : ℚ) ≤ 1 :=
  claim10_score_bounds "A" [["A", "B"]] (build_graph ["A", "B"] [("A", "B")]) 1 1
    (by with_unfolding_all decide) one_ne_zero

end MovieRec
